import Mathlib

/-!
Shallow embedding of the Softmacs v0 runtime (src/src/v0.rs): the arena
heap with generation stamps, the mark/sweep collector, the object model,
the tokenizer/parser and the printer, together with theorems checking the
specification's claims against this embedding.

Conventions of the embedding:
* `usize` indices and stamps become `Nat`.
* `Rc<str>` becomes `String`.
* `Result<T>` becomes `Except Error T`.
* a `&mut self` method of the source becomes a function returning the
  result paired with the updated state; a `&self` method becomes a pure
  function of the state.
* `Vec` iteration becomes structural recursion over `List`.
* slot access `self.nodes[pointer.index]` panics in Rust when the index is
  out of bounds; the embedding uses `List.getD _ Node.None`, and every
  theorem that depends on the slot content carries an in-bounds hypothesis
  so the out-of-bounds behaviour never matters.
-/

/-- Equality of `Except` values is decidable when it is on both sides;
used to settle concrete scenarios by `decide`. -/
instance {ε α : Type} [DecidableEq ε] [DecidableEq α] : DecidableEq (Except ε α) := by
  intro a b
  cases a <;> cases b
  case ok.ok x y =>
    exact if h : x = y then .isTrue (by rw [h]) else .isFalse (by intro hh; cases hh; exact h rfl)
  case error.error x y =>
    exact if h : x = y then .isTrue (by rw [h]) else .isFalse (by intro hh; cases hh; exact h rfl)
  case ok.error x y => exact .isFalse (by intro hh; cases hh)
  case error.ok x y => exact .isFalse (by intro hh; cases hh)

namespace Softmacs

/-- Error kinds of v0.rs (`enum Error`). -/
inductive Error where
  | Stub
  | Read
  | Time
  | Space
  | Type
  | Guard
  | Pointer
  deriving Repr, DecidableEq

/-- Generational pointer (`struct Gc { index, timestamp }`). -/
structure Gc where
  index : Nat
  timestamp : Nat
  deriving Repr, DecidableEq

/-- A cons cell (`struct Pair { fst, snd, is_list }`). -/
structure PairV where
  fst : Gc
  snd : Gc
  is_list : Bool
  deriving Repr, DecidableEq

/-- Tags of native procedures (source enum `Nat`; renamed here so it does
not clash with the natural numbers of the embedding). -/
inductive NatTag where
  | Pair | Fst | Snd | Eval | Init | Shift | Reset | And | Or | Not
  deriving Repr, DecidableEq

/-- `struct App(Gc)`: a re-apply wrapper around one reference. -/
structure AppV where
  inner : Gc
  deriving Repr, DecidableEq

/-- `struct Abs { head, tail, lexical, dynamic }`: a closure. -/
structure AbsV where
  head : Gc
  tail : Gc
  lexical : Gc
  dynamic : Gc
  deriving Repr, DecidableEq

/-- `enum Proc`. -/
inductive Proc where
  | Nat (n : NatTag)
  | App (v : AppV)
  | Abs (v : AbsV)
  deriving Repr, DecidableEq

/-- Alias for the booleans, visible inside the declaration of `Object`
where the constructor name `Bool` shadows it. -/
abbrev BoolT := Bool

/-- Alias for `Proc`, visible inside the declaration of `Object` where
the constructor name `Proc` shadows it. -/
abbrev ProcT := Proc

/-- `enum Object`. -/
inductive Object where
  | Unit
  | Bool (b : BoolT)
  | Symbol (s : String)
  | Pair (v : PairV)
  | Proc (p : ProcT)
  deriving Repr, DecidableEq

/-- `enum Node`: a heap slot, `None` = empty, `Some` = occupied,
`Mark` = marked during a collection cycle. -/
inductive Node where
  | None
  | Some (object : Object) (timestamp : Nat)
  | Mark (object : Object) (timestamp : Nat)
  deriving Repr, DecidableEq

/-- `struct Heap { nodes, time }`. -/
structure Heap where
  nodes : List Node
  time : Nat
  deriving Repr, DecidableEq

/-- `Object::is_unit`. (Return type spelled `BoolT`: inside the `Object`
namespace the name `Bool` is the constructor.) -/
def Object.is_unit : Object → BoolT
  | .Unit => true
  | _ => false

/-- `Node::is_none`. -/
def Node.is_none : Node → Bool
  | .None => true
  | _ => false

/-- `Node::is_some`. -/
def Node.is_some : Node → Bool
  | .Some _ _ => true
  | _ => false

/-- `Node::is_mark`. -/
def Node.is_mark : Node → Bool
  | .Mark _ _ => true
  | _ => false

/-- `Heap::with_capacity`: all slots empty, time 0. -/
def Heap.withCapacity (capacity : Nat) : Heap :=
  { nodes := List.replicate capacity Node.None, time := 0 }

/-- The slot of the heap a pointer refers to (`self.nodes[pointer.index]`;
out of bounds reads as `Node.None`, see the header note). -/
def Heap.nodeAt (h : Heap) (p : Gc) : Node :=
  h.nodes.getD p.index Node.None

/-- The scan loop of `Heap::put`: find the first empty slot, install
`Node::Some(object, time)` there and report its index; `none` when every
slot is occupied. -/
def putLoop (time : Nat) (object : Object) : List Node → Option (List Node × Nat)
  | [] => none
  | n :: rest =>
    if n.is_none then some (Node.Some object time :: rest, 0)
    else
      match putLoop time object rest with
      | none => none
      | some (rest2, i) => some (n :: rest2, i + 1)

/-- `Heap::put`: first-fit allocation; stamps the object with the current
time, advances time by one; `Error::Space` (and no state change) when the
heap is full. -/
def Heap.put (h : Heap) (object : Object) : Except Error Gc × Heap :=
  match putLoop h.time object h.nodes with
  | some (nodes2, i) => (.ok ⟨i, h.time⟩, { nodes := nodes2, time := h.time + 1 })
  | none => (.error .Space, h)

/-- `Heap::get`: dereference a pointer; `Error::Pointer` on an empty slot
or a stamp mismatch. Mirrors `&self`: the heap is read-only. -/
def Heap.get (h : Heap) (p : Gc) : Except Error Object :=
  match h.nodeAt p with
  | .Some object ts | .Mark object ts =>
    if p.timestamp ≠ ts then .error .Pointer else .ok object
  | .None => .error .Pointer

/-- The sub-references pushed onto `to_mark` for one object in
`Heap::mark`. -/
def markChildren : Object → List Gc
  | .Unit => []
  | .Bool _ => []
  | .Symbol _ => []
  | .Pair v => [v.fst, v.snd]
  | .Proc (.Nat _) => []
  | .Proc (.App v) => [v.inner]
  | .Proc (.Abs v) => [v.head, v.tail, v.lexical, v.dynamic]

/-- The `for pointer in to_mark.iter()` loop of `Heap::mark`: pointers not
yet seen are inserted into the seen set and appended to the worklist. -/
def markAbsorb (seen mark : List Gc) : List Gc → List Gc × List Gc
  | [] => (seen, mark)
  | p :: rest =>
    if p ∈ seen then markAbsorb seen mark rest
    else markAbsorb (p :: seen) (mark ++ [p]) rest

/-- The `while !mark.is_empty()` loop of `Heap::mark`, with explicit fuel
(`none` = the iteration bound was reached without the loop finishing).
Faithful to the source: every iteration matches on
`self.nodes[pointer.index]` where `pointer` is the original root argument,
and nothing is ever popped from `mark`. The body of `Heap::mark` contains
no assignment to `self.nodes` or `self.time`, so the heap is read-only
here. -/
def Heap.markLoop (h : Heap) (root : Gc) : Nat → List Gc → List Gc → Option (Except Error Unit)
  | 0, _, _ => none
  | fuel + 1, seen, mark =>
    if mark.isEmpty then some (.ok ())
    else
      match h.nodeAt root with
      | .None => some (.error .Pointer)
      | .Some object _ | .Mark object _ =>
        let sm := markAbsorb seen mark (markChildren object)
        h.markLoop root fuel sm.1 sm.2

/-- `Heap::mark` with fuel: seen set starts empty, worklist starts as the
root alone. -/
def Heap.mark (h : Heap) (root : Gc) (fuel : Nat) : Option (Except Error Unit) :=
  h.markLoop root fuel [] [root]

/-- The per-slot action of `Heap::sweep`. -/
def sweepNode : Node → Node
  | .None => .None
  | .Some _ _ => .None
  | .Mark object ts => .Some object ts

/-- `Heap::sweep`: unmarked occupied slots are emptied, marked slots
revert to occupied, time advances by one. (The reclaimed-slot count the
source prints is I/O and not modelled.) -/
def Heap.sweep (h : Heap) : Heap :=
  { nodes := h.nodes.map sweepNode, time := h.time + 1 }

/-- `struct V0 { heap }`. -/
structure V0 where
  heap : Heap
  deriving Repr, DecidableEq

/-- `pub fn init(capacity)`. -/
def init (capacity : Nat) : V0 :=
  ⟨Heap.withCapacity capacity⟩

/-- `V0::unit`. -/
def V0.unit (l : V0) : Except Error Gc × V0 :=
  let r := l.heap.put .Unit
  (r.1, ⟨r.2⟩)

/-- `V0::t`. -/
def V0.t (l : V0) : Except Error Gc × V0 :=
  let r := l.heap.put (.Bool true)
  (r.1, ⟨r.2⟩)

/-- `V0::f`. -/
def V0.f (l : V0) : Except Error Gc × V0 :=
  let r := l.heap.put (.Bool false)
  (r.1, ⟨r.2⟩)

/-- `V0::symbol`. -/
def V0.symbol (l : V0) (value : String) : Except Error Gc × V0 :=
  let r := l.heap.put (.Symbol value)
  (r.1, ⟨r.2⟩)

/-- The match of `V0::pair` computing the cached `is_list` flag from the
object `snd` points at. -/
def flagOfRest : Object → Bool
  | .Unit => true
  | .Pair v => v.is_list
  | _ => false

/-- `V0::pair`: dereferences `snd` to compute `is_list`, then allocates
the cell; an error from `get` propagates and leaves the heap unchanged. -/
def V0.pair (l : V0) (fst snd : Gc) : Except Error Gc × V0 :=
  match l.heap.get snd with
  | .error e => (.error e, l)
  | .ok object =>
    let r := l.heap.put (.Pair ⟨fst, snd, flagOfRest object⟩)
    (r.1, ⟨r.2⟩)

/-- `enum Token`. -/
inductive Token where
  | Lparen
  | Rparen
  | Space (s : String)
  | Symbol (s : String)
  deriving Repr, DecidableEq

/-- Whitespace characters recognised by the tokenizer. -/
def isSpaceRune (c : Char) : Bool :=
  c = ' ' || c = '\t' || c = '\r' || c = '\n'

/-- Delimiters ending a symbol token. -/
def isDelimRune (c : Char) : Bool :=
  c = '(' || c = ')' || isSpaceRune c

/-- The loop of `fn tokenize`, with structural fuel so it computes by
kernel reduction: parens are single-character tokens; a maximal run of
whitespace becomes one `Space` token; a maximal run of non-delimiter
characters becomes one `Symbol` token. The source walks the char vector
with an index and inner while loops; here each inner loop is a
takeWhile/dropWhile split of the rest of the input. Each step consumes at
least one character and one unit of fuel, so fuel equal to the input
length (as supplied by `tokenize`) never runs out. -/
def tokenizeFuel : Nat → List Char → List Token
  | _, [] => []
  | 0, _ :: _ => []
  | fuel + 1, c :: rest =>
    if c = '(' then Token.Lparen :: tokenizeFuel fuel rest
    else if c = ')' then Token.Rparen :: tokenizeFuel fuel rest
    else if isSpaceRune c then
      Token.Space (String.mk (c :: rest.takeWhile isSpaceRune)) ::
        tokenizeFuel fuel (rest.dropWhile isSpaceRune)
    else
      Token.Symbol (String.mk (c :: rest.takeWhile (fun d => !isDelimRune d))) ::
        tokenizeFuel fuel (rest.dropWhile (fun d => !isDelimRune d))

/-- `fn tokenize`. -/
def tokenize (src : List Char) : List Token :=
  tokenizeFuel src.length src

/-- The `for pointer in pointers.iter().rev()` loop closing a list in
`parse`: folds the collected pointers (already reversed by the caller)
into pair cells on top of the accumulator. -/
def foldPairs (items : List Gc) (xs : Gc) (lisp : V0) : Except Error Gc × V0 :=
  match items with
  | [] => (.ok xs, lisp)
  | p :: rest =>
    match lisp.pair p xs with
    | (.error e, l2) => (.error e, l2)
    | (.ok xs2, l2) => foldPairs rest xs2 l2

/-- The check `body.starts_with("#")` of `fn parse`: the symbol's first
character is `#`. (The library's `String.startsWith` is defined by
well-founded recursion and does not compute by kernel reduction; this
single-character case is spelled out over the character list instead.) -/
def startsWithHash (s : String) : Bool :=
  match s.data with
  | c :: _ => c = '#'
  | [] => false

/-- The token loop of `fn parse`. State: the tokens left, the pointers of
the current (innermost pending) list, the stack of enclosing pending
lists, and the heap owner. At end of input the current pointers are
returned as the top-level values — also when the stack is not empty
(an unclosed open paren is not detected). -/
def parseLoop : List Token → List Gc → List (List Gc) → V0 → Except Error (List Gc) × V0
  | [], pointers, _, lisp => (.ok pointers, lisp)
  | .Lparen :: rest, pointers, stack, lisp =>
    parseLoop rest [] (pointers :: stack) lisp
  | .Rparen :: rest, pointers, stack, lisp =>
    match stack with
    | prev :: stackRest =>
      match lisp.unit with
      | (.error e, l2) => (.error e, l2)
      | (.ok u, l2) =>
        match foldPairs pointers.reverse u l2 with
        | (.error e, l3) => (.error e, l3)
        | (.ok xs, l3) => parseLoop rest (prev ++ [xs]) stackRest l3
    | [] => (.error .Read, lisp)
  | .Space _ :: rest, pointers, stack, lisp =>
    parseLoop rest pointers stack lisp
  | .Symbol s :: rest, pointers, stack, lisp =>
    if startsWithHash s then
      if s = "#" then
        match lisp.unit with
        | (.error e, l2) => (.error e, l2)
        | (.ok p, l2) => parseLoop rest (pointers ++ [p]) stack l2
      else if s = "#t" then
        match lisp.t with
        | (.error e, l2) => (.error e, l2)
        | (.ok p, l2) => parseLoop rest (pointers ++ [p]) stack l2
      else if s = "#f" then
        match lisp.f with
        | (.error e, l2) => (.error e, l2)
        | (.ok p, l2) => parseLoop rest (pointers ++ [p]) stack l2
      else (.error .Read, lisp)
    else
      match lisp.symbol s with
      | (.error e, l2) => (.error e, l2)
      | (.ok p, l2) => parseLoop rest (pointers ++ [p]) stack l2

/-- `fn parse`: the loop starting from empty pointers and stack. -/
def parse (src : List Token) (lisp : V0) : Except Error (List Gc) × V0 :=
  parseLoop src [] [] lisp

/-- `V0::read`: tokenize, then parse. -/
def V0.read (lisp : V0) (src : String) : Except Error (List Gc) × V0 :=
  parse (tokenize src.data) lisp

mutual

/-- `V0::show`: renders a value into the buffer. The source recurses on
the host call stack; the embedding threads the buffer and uses fuel
(`none` = fuel ran out, which never happens in the concrete scenarios
below). `Unit` renders as `"#"`, booleans as `#t`/`#f`, symbols as their
name, a non-list pair as `(a * b)`, a list pair via the element loop, and
a procedure as an opaque placeholder. Mirrors `&self`: read-only. -/
def showV (h : Heap) : Nat → Gc → String → Option (Except Error String)
  | 0, _, _ => none
  | fuel + 1, pointer, buf =>
    match h.get pointer with
    | .error e => some (.error e)
    | .ok .Unit => some (.ok (buf ++ "#"))
    | .ok (.Bool value) => some (.ok (buf ++ if value then "#t" else "#f"))
    | .ok (.Symbol s) => some (.ok (buf ++ s))
    | .ok (.Pair v) =>
      if !v.is_list then
        match showV h fuel v.fst (buf ++ "(") with
        | none => none
        | some (.error e) => some (.error e)
        | some (.ok buf2) =>
          match showV h fuel v.snd (buf2 ++ " * ") with
          | none => none
          | some (.error e) => some (.error e)
          | some (.ok buf3) => some (.ok (buf3 ++ ")"))
      else showListV h fuel pointer (buf ++ "(")
    | .ok (.Proc _) => some (.ok (buf ++ "<procedure>"))

/-- The `while let Object::Pair(..) = self.heap.get(xs)?` loop of
`V0::show` in the proper-list branch: show each element, append a space
when the tail is not `Unit`, and on loop exit guard that the final tail
is `Unit` before closing the paren. -/
def showListV (h : Heap) : Nat → Gc → String → Option (Except Error String)
  | 0, _, _ => none
  | fuel + 1, xs, buf =>
    match h.get xs with
    | .error e => some (.error e)
    | .ok (.Pair v) =>
      match showV h fuel v.fst buf with
      | none => none
      | some (.error e) => some (.error e)
      | some (.ok buf2) =>
        match h.get v.snd with
        | .error e => some (.error e)
        | .ok o2 =>
          showListV h fuel v.snd (if !o2.is_unit then buf2 ++ " " else buf2)
    | .ok o =>
      if o.is_unit then some (.ok (buf ++ ")")) else some (.error .Guard)

end

/-- The stamp recorded in a slot, `none` for an empty slot. -/
def Node.stamp? : Node → Option Nat
  | .None => none
  | .Some _ ts => some ts
  | .Mark _ ts => some ts

/-- The object recorded in a slot, `none` for an empty slot. -/
def Node.object? : Node → Option Object
  | .None => none
  | .Some object _ => some object
  | .Mark object _ => some object

/-- Stamp invariant: every stamp recorded in an occupied or marked slot is
strictly below the heap's time counter. -/
def stampInvB (h : Heap) : Bool :=
  h.nodes.all fun n =>
    match n with
    | .None => true
    | .Some _ ts => decide (ts < h.time)
    | .Mark _ ts => decide (ts < h.time)

/-- The well-formedness of one stored pair: its `snd` pointer resolves to
an occupied or marked slot with the matching stamp, the stamp of the
target is strictly below the pair's own stamp (the tail was allocated
first), and the cached flag agrees with the target's immediate shape as
computed by the constructor. -/
def pairSndOk (h : Heap) (v : PairV) (ts : Nat) : Bool :=
  match h.nodeAt v.snd with
  | .Some obj ts2 | .Mark obj ts2 =>
    decide (v.snd.timestamp = ts2) && decide (ts2 < ts) && (v.is_list == flagOfRest obj)
  | .None => false

/-- Pair invariant: every stored pair is well formed per `pairSndOk`. -/
def pairInvB (h : Heap) : Bool :=
  h.nodes.all fun n =>
    match n with
    | .Some (.Pair v) ts => pairSndOk h v ts
    | .Mark (.Pair v) ts => pairSndOk h v ts
    | _ => true

/-- The heap invariant maintained by the constructor operations. -/
def heapInvB (h : Heap) : Bool :=
  stampInvB h && pairInvB h

/-- A from-scratch traversal of a `rest` chain, following the wording of
the specification: `some true` when the chain from this value terminates
in `Unit`, `some false` when it terminates in any other non-pair object,
`none` when the fuel runs out or a pointer fails to dereference. This is
the spec-side traversal the cached `is_list` flag is compared with. -/
def chaseList (h : Heap) : Nat → Gc → Option Bool
  | 0, _ => none
  | fuel + 1, p =>
    match h.get p with
    | .error _ => none
    | .ok .Unit => some true
    | .ok (.Pair v) => chaseList h fuel v.snd
    | .ok _ => some false

/-- A heap mutation step: an allocation or a sweep. (`get` is `&self` in
the source and `mark` performs no writes, so neither changes the heap;
these two are the mutating operations.) -/
inductive HeapOp where
  | put (object : Object)
  | sweep
  deriving Repr, DecidableEq

/-- Run a sequence of heap mutation steps. -/
def runOps (h : Heap) : List HeapOp → Heap
  | [] => h
  | .put object :: rest => runOps (h.put object).2 rest
  | .sweep :: rest => runOps h.sweep rest

end Softmacs

namespace Softmacs

/-! Helper lemmas about slots and the allocation scan. -/

/-- A slot is `is_none` exactly when it is the empty slot. -/
lemma Node.is_none_iff (n : Node) : n.is_none = true ↔ n = Node.None := by
  cases n <;> simp [Node.is_none]

/-- A slot is not `is_none` exactly when it is occupied or marked. -/
lemma Node.is_none_false_iff (n : Node) : n.is_none = false ↔ n ≠ Node.None := by
  cases n <;> simp [Node.is_none]

/-- The allocation scan fails exactly when no slot is empty. -/
lemma putLoop_none_iff (t : Nat) (o : Object) (ns : List Node) :
    putLoop t o ns = none ↔ ∀ n ∈ ns, n.is_none = false := by
  induction ns with
  | nil => simp [putLoop]
  | cons head rest ih =>
    by_cases hh : head.is_none = true
    · constructor
      · intro hcontra
        simp [putLoop, hh] at hcontra
      · intro hall
        have h0 := hall head (by simp)
        rw [hh] at h0
        cases h0
    · have hh' : head.is_none = false := by simpa using hh
      cases hput : putLoop t o rest with
      | none =>
        constructor
        · intro _ n hn
          rcases List.mem_cons.mp hn with rfl | hn2
          · exact hh'
          · exact (ih.mp hput) n hn2
        · intro _
          simp [putLoop, hh', hput]
      | some pr =>
        constructor
        · intro hcontra
          obtain ⟨ns2, i⟩ := pr
          simp [putLoop, hh', hput] at hcontra
        · intro hall
          exfalso
          have h0 : putLoop t o rest = none :=
            ih.mpr fun n hn => hall n (List.mem_cons_of_mem _ hn)
          rw [hput] at h0
          cases h0

/-- What a successful allocation scan did: it installed the object at the
reported index, that index held the empty slot, and every lower slot was
occupied (first fit). -/
lemma putLoop_some_spec (t : Nat) (o : Object) :
    ∀ (ns ns2 : List Node) (i : Nat),
      putLoop t o ns = some (ns2, i) →
      ns2 = ns.set i (Node.Some o t) ∧ i < ns.length ∧
        ns.getD i Node.None = Node.None ∧
        ∀ j, j < i → (ns.getD j Node.None).is_none = false := by
  intro ns
  induction ns with
  | nil =>
    intro ns2 i h
    simp [putLoop] at h
  | cons head rest ih =>
    intro ns2 i h
    by_cases hh : head.is_none = true
    · have hnone : head = Node.None := (Node.is_none_iff head).mp hh
      simp [putLoop, hh] at h
      obtain ⟨h1, h2⟩ := h
      subst h1
      subst h2
      exact ⟨rfl, Nat.succ_pos _, by simpa [List.getD_cons_zero] using hnone,
        fun j hj => absurd hj (Nat.not_lt_zero j)⟩
    · have hh' : head.is_none = false := by simpa using hh
      cases hput : putLoop t o rest with
      | none => simp [putLoop, hh', hput] at h
      | some pr =>
        obtain ⟨rest2, i2⟩ := pr
        simp [putLoop, hh', hput] at h
        obtain ⟨h1, h2⟩ := h
        obtain ⟨ha, hb, hc, hd⟩ := ih rest2 i2 hput
        subst h1
        subst h2
        refine ⟨by rw [ha]; rfl, Nat.succ_lt_succ hb, by simpa [List.getD_cons_succ] using hc, ?_⟩
        intro j hj
        cases j with
        | zero => simpa [List.getD_cons_zero] using hh'
        | succ j2 =>
          rw [List.getD_cons_succ]
          exact hd j2 (Nat.lt_of_succ_lt_succ hj)

/-- Conversely, first-fit conditions at an index pin the allocation scan's
result. -/
lemma putLoop_first_fit (t : Nat) (o : Object) :
    ∀ (ns : List Node) (i : Nat),
      i < ns.length → ns.getD i Node.None = Node.None →
      (∀ j, j < i → (ns.getD j Node.None).is_none = false) →
      putLoop t o ns = some (ns.set i (Node.Some o t), i) := by
  intro ns
  induction ns with
  | nil =>
    intro i hi
    simp at hi
  | cons head rest ih =>
    intro i hi hnone hbefore
    cases i with
    | zero =>
      have h0 : head = Node.None := by simpa [List.getD_cons_zero] using hnone
      subst h0
      simp [putLoop, Node.is_none]
    | succ i2 =>
      have hh' : head.is_none = false := by
        simpa [List.getD_cons_zero] using hbefore 0 (Nat.succ_pos _)
      have hrec := ih i2 (Nat.lt_of_succ_lt_succ hi)
        (by simpa [List.getD_cons_succ] using hnone)
        (fun j hj => by simpa [List.getD_cons_succ] using hbefore (j + 1) (Nat.succ_lt_succ hj))
      simp [putLoop, hh', hrec]

/-- A pointer whose slot is not empty is in bounds. -/
lemma nodeAt_lt_length (h : Heap) (p : Gc) (hne : h.nodeAt p ≠ Node.None) :
    p.index < h.nodes.length := by
  by_contra hcontra
  apply hne
  have hnone : h.nodes[p.index]? = none := List.getElem?_eq_none (Nat.le_of_not_lt hcontra)
  simp [Heap.nodeAt, hnone]

/-- For a pointer whose slot is not empty, `nodeAt` agrees with the
optional indexing. -/
lemma nodeAt_some (h : Heap) (p : Gc) (hne : h.nodeAt p ≠ Node.None) :
    h.nodes[p.index]? = some (h.nodeAt p) := by
  cases hx : h.nodes[p.index]? with
  | none =>
    exfalso
    apply hne
    simp [Heap.nodeAt, hx]
  | some m => simp [Heap.nodeAt, hx]

/-- What a successful `put` did, in terms of the heap fields: the pointer
is stamped with the old time, the time advanced by one, the pointed slot
was empty and now holds the object. -/
lemma put_ok_spec (h : Heap) (o : Object) (p : Gc) (h2 : Heap)
    (hput : h.put o = (.ok p, h2)) :
    p.timestamp = h.time ∧ h2.time = h.time + 1 ∧
      h2.nodes = h.nodes.set p.index (Node.Some o h.time) ∧
      p.index < h.nodes.length ∧ h.nodes.getD p.index Node.None = Node.None := by
  unfold Heap.put at hput
  cases hput2 : putLoop h.time o h.nodes with
  | none =>
    rw [hput2] at hput
    cases hput
  | some pr =>
    obtain ⟨ns2, i⟩ := pr
    rw [hput2] at hput
    obtain ⟨ha, hb, hc, _⟩ := putLoop_some_spec h.time o h.nodes ns2 i hput2
    injection hput with h1 h2eq
    injection h1 with h1
    subst h1
    subst h2eq
    exact ⟨rfl, rfl, ha, hb, hc⟩

/-- Unfolded form of the stamp invariant. -/
lemma stampInvB_iff (h : Heap) :
    stampInvB h = true ↔
      ∀ n ∈ h.nodes, ∀ obj ts,
        (n = Node.Some obj ts ∨ n = Node.Mark obj ts) → ts < h.time := by
  unfold stampInvB
  rw [List.all_eq_true]
  constructor
  · intro hall n hn obj ts hcase
    have h0 := hall n hn
    rcases hcase with rfl | rfl <;> simpa using h0
  · intro hall n hn
    cases n with
    | None => simp
    | Some obj ts => simpa using hall _ hn obj ts (Or.inl rfl)
    | Mark obj ts => simpa using hall _ hn obj ts (Or.inr rfl)

/-- Unfolded form of the per-pair condition `pairSndOk`. -/
lemma pairSndOk_iff (h : Heap) (v : PairV) (ts : Nat) :
    pairSndOk h v ts = true ↔
      ∃ obj ts2,
        (h.nodeAt v.snd = Node.Some obj ts2 ∨ h.nodeAt v.snd = Node.Mark obj ts2) ∧
        v.snd.timestamp = ts2 ∧ ts2 < ts ∧ v.is_list = flagOfRest obj := by
  unfold pairSndOk
  cases hn : h.nodeAt v.snd with
  | None =>
    constructor
    · intro hb
      cases hb
    · rintro ⟨obj2, ts2, hcase, _⟩
      rcases hcase with heq | heq <;> cases heq
  | Some obj ts2 =>
    constructor
    · intro hb
      simp only [Bool.and_eq_true, decide_eq_true_eq, beq_iff_eq] at hb
      obtain ⟨⟨h1, h2⟩, h3⟩ := hb
      exact ⟨obj, ts2, Or.inl rfl, h1, h2, h3⟩
    · rintro ⟨obj2, ts3, hcase, h1, h2, h3⟩
      rcases hcase with heq | heq
      · injection heq with ho ht
        subst ho
        subst ht
        simp only [Bool.and_eq_true, decide_eq_true_eq, beq_iff_eq]
        exact ⟨⟨h1, h2⟩, h3⟩
      · cases heq
  | Mark obj ts2 =>
    constructor
    · intro hb
      simp only [Bool.and_eq_true, decide_eq_true_eq, beq_iff_eq] at hb
      obtain ⟨⟨h1, h2⟩, h3⟩ := hb
      exact ⟨obj, ts2, Or.inr rfl, h1, h2, h3⟩
    · rintro ⟨obj2, ts3, hcase, h1, h2, h3⟩
      rcases hcase with heq | heq
      · cases heq
      · injection heq with ho ht
        subst ho
        subst ht
        simp only [Bool.and_eq_true, decide_eq_true_eq, beq_iff_eq]
        exact ⟨⟨h1, h2⟩, h3⟩

/-- Unfolded form of the pair invariant. -/
lemma pairInvB_iff (h : Heap) :
    pairInvB h = true ↔
      ∀ n ∈ h.nodes, ∀ v ts,
        (n = Node.Some (Object.Pair v) ts ∨ n = Node.Mark (Object.Pair v) ts) →
        pairSndOk h v ts = true := by
  unfold pairInvB
  rw [List.all_eq_true]
  constructor
  · intro hall n hn v ts hcase
    have h0 := hall n hn
    rcases hcase with rfl | rfl <;> simpa using h0
  · intro hall n hn
    cases n with
    | None => rfl
    | Some obj ts =>
      cases obj with
      | Pair v => exact hall _ hn v ts (Or.inl rfl)
      | Unit => rfl
      | Bool b => rfl
      | Symbol s => rfl
      | Proc pr => rfl
    | Mark obj ts =>
      cases obj with
      | Pair v => exact hall _ hn v ts (Or.inr rfl)
      | Unit => rfl
      | Bool b => rfl
      | Symbol s => rfl
      | Proc pr => rfl

/-- What a successful dereference tells about the slot: it is occupied or
marked with the dereferenced object and the matching stamp. -/
lemma get_ok_spec (h : Heap) (p : Gc) (obj : Object) (hget : h.get p = .ok obj) :
    ∃ ts, (h.nodeAt p = Node.Some obj ts ∨ h.nodeAt p = Node.Mark obj ts) ∧
      p.timestamp = ts := by
  unfold Heap.get at hget
  cases hn : h.nodeAt p with
  | None =>
    rw [hn] at hget
    cases hget
  | Some obj0 ts0 =>
    rw [hn] at hget
    by_cases hts : p.timestamp = ts0
    · simp only [hts, ne_eq, not_true_eq_false, if_false, ite_false] at hget
      injection hget with ho
      subst ho
      exact ⟨ts0, Or.inl rfl, hts⟩
    · simp only [ne_eq, hts, not_false_eq_true, if_true, ite_true] at hget
      cases hget
  | Mark obj0 ts0 =>
    rw [hn] at hget
    by_cases hts : p.timestamp = ts0
    · simp only [hts, ne_eq, not_true_eq_false, if_false, ite_false] at hget
      injection hget with ho
      subst ho
      exact ⟨ts0, Or.inr rfl, hts⟩
    · simp only [ne_eq, hts, not_false_eq_true, if_true, ite_true] at hget
      cases hget

/-- The node a pointer dereferences to is one of the heap's slots. -/
lemma nodeAt_mem (h : Heap) (p : Gc) (hne : h.nodeAt p ≠ Node.None) :
    h.nodeAt p ∈ h.nodes :=
  List.getElem?_mem (nodeAt_some h p hne)

/-- A pointer resolving to an occupied or marked slot cannot share its
index with an empty slot. -/
lemma index_ne_of_nodeAt_ne_none (h : Heap) (q : Gc) (i : Nat)
    (hi : h.nodes.getD i Node.None = Node.None) (hq : h.nodeAt q ≠ Node.None) :
    q.index ≠ i := by
  intro heq
  apply hq
  unfold Heap.nodeAt
  rw [heq]
  exact hi

/-- Under the pair invariant, the cached flag of the object at a valid
pointer agrees with the from-scratch traversal of the `rest` chain for
any fuel above the slot's stamp (stamps strictly decrease along the
chain, so the stamp bounds the chain's remaining length). -/
lemma chase_agrees :
    ∀ (fuel : Nat) (h : Heap) (p : Gc) (obj : Object) (ts : Nat),
      pairInvB h = true →
      (h.nodeAt p = Node.Some obj ts ∨ h.nodeAt p = Node.Mark obj ts) →
      p.timestamp = ts → ts < fuel →
      chaseList h fuel p = some (flagOfRest obj) := by
  intro fuel
  induction fuel with
  | zero =>
    intro h p obj ts _ _ _ hlt
    omega
  | succ fuel ih =>
    intro h p obj ts hinv hslot hts hlt
    have hget : h.get p = .ok obj := by
      unfold Heap.get
      rcases hslot with hs | hs <;> rw [hs] <;> simp [hts]
    cases obj with
    | Unit => simp [chaseList, hget, flagOfRest]
    | Bool b => simp [chaseList, hget, flagOfRest]
    | Symbol s => simp [chaseList, hget, flagOfRest]
    | Proc pr => simp [chaseList, hget, flagOfRest]
    | Pair v =>
      have hne : h.nodeAt p ≠ Node.None := by
        rcases hslot with hs | hs <;> rw [hs] <;> intro hc <;> cases hc
      have hmem : h.nodeAt p ∈ h.nodes := nodeAt_mem h p hne
      have hok : pairSndOk h v ts = true := by
        rcases hslot with hs | hs
        · exact (pairInvB_iff h).mp hinv _ (hs ▸ hmem) v ts (Or.inl rfl)
        · exact (pairInvB_iff h).mp hinv _ (hs ▸ hmem) v ts (Or.inr rfl)
      obtain ⟨obj2, ts2, hslot2, hts2, hlt2, hflag⟩ := (pairSndOk_iff h v ts).mp hok
      have hrec := ih h v.snd obj2 ts2 hinv hslot2 hts2 (by omega)
      simp only [chaseList, hget, hrec]
      rw [← hflag]
      rfl

/-! Helper lemmas about the mark worklist loop. -/

/-- The absorb loop only appends to the worklist, so a non-empty worklist
stays non-empty. -/
lemma markAbsorb_ne_nil (ts : List Gc) : ∀ seen mark : List Gc,
    mark ≠ [] → (markAbsorb seen mark ts).2 ≠ [] := by
  induction ts with
  | nil =>
    intro seen mark h
    simpa [markAbsorb] using h
  | cons p rest ih =>
    intro seen mark h
    by_cases hp : p ∈ seen
    · simpa [markAbsorb, hp] using ih seen mark h
    · have h2 : mark ++ [p] ≠ [] := by simp
      simpa [markAbsorb, hp] using ih (p :: seen) (mark ++ [p]) h2

/-- Nothing is ever popped from the worklist of `Heap::mark`, and every
iteration re-examines the slot of the original root argument; when that
slot is occupied or marked, the loop condition stays true forever. -/
lemma markLoop_diverges (h : Heap) (root : Gc) (object : Object) (ts : Nat)
    (hroot : h.nodeAt root = Node.Some object ts ∨ h.nodeAt root = Node.Mark object ts) :
    ∀ (fuel : Nat) (seen mark : List Gc),
      mark ≠ [] → h.markLoop root fuel seen mark = none := by
  intro fuel
  induction fuel with
  | zero => intro seen mark _; rfl
  | succ fuel ih =>
    intro seen mark hmark
    have hne : mark.isEmpty = false := by
      cases mark with
      | nil => exact absurd rfl hmark
      | cons a l => rfl
    rcases hroot with hr | hr <;>
      simp only [Heap.markLoop, hne, Bool.false_eq_true, if_false, hr] <;>
      exact ih _ _ (markAbsorb_ne_nil _ _ _ hmark)

/-- C2: the claim says the mark traversal terminates on every valid root
because of the seen set. The code refutes this: `Heap::mark` loops
forever on every root whose slot is occupied or marked, since the
worklist is never popped. This theorem shows that for every such root no
amount of fuel makes the loop finish. -/
theorem c2_mark_never_terminates (h : Heap) (root : Gc) (object : Object) (ts : Nat)
    (hroot : h.nodeAt root = Node.Some object ts ∨ h.nodeAt root = Node.Mark object ts) :
    ∀ fuel : Nat, h.mark root fuel = none := by
  intro fuel
  exact markLoop_diverges h root object ts hroot fuel [] [root] (by simp)

/-- Witness for C2: a one-slot heap holding `Unit`, with the valid pointer
returned by the allocation as root. -/
theorem c2_mark_never_terminates_witness :
    (((Heap.withCapacity 1).put Object.Unit).2.nodeAt ⟨0, 0⟩ = Node.Some Object.Unit 0 ∨
      ((Heap.withCapacity 1).put Object.Unit).2.nodeAt ⟨0, 0⟩ = Node.Mark Object.Unit 0) ∧
    ((Heap.withCapacity 1).put Object.Unit).2.mark ⟨0, 0⟩ 100 = none :=
  ⟨Or.inl (by decide),
    c2_mark_never_terminates _ _ Object.Unit 0 (Or.inl (by decide)) 100⟩

/-- C1: the claim says mark+sweep preserves every slot reachable from the
root set and empties the unreachable ones. The code refutes this: mark
never returns on a valid root (first conjunct), it writes no slot at all,
and sweep alone resets the reachable occupied slot to empty, so the
original pointer no longer dereferences (last conjuncts evaluate the
failing input: a one-slot heap holding `Unit`, rooted at its own valid
pointer). -/
theorem c1_mark_sweep_loses_reachable :
    (∀ fuel : Nat, (((Heap.withCapacity 1).put Object.Unit).2.mark ⟨0, 0⟩ fuel = none)) ∧
    ((Heap.withCapacity 1).put Object.Unit).2.get ⟨0, 0⟩ = .ok .Unit ∧
    ((Heap.withCapacity 1).put Object.Unit).2.sweep.get ⟨0, 0⟩ = .error .Pointer := by
  refine ⟨fun fuel => ?_, by decide, by decide⟩
  exact markLoop_diverges _ _ Object.Unit 0 (Or.inl (by decide)) fuel [] [⟨0, 0⟩] (by simp)

/-- Counterexample for C5: the claim says `read` fails with a `Read`
error on an unclosed open paren. On the input `"(a"` the parser instead
succeeds and returns the innermost pending items as top-level values. -/
theorem c5_unclosed_paren_not_read_error :
    ((init 16).read "(a").1 = .ok [⟨0, 0⟩] ∧
    ((init 16).read "(a").1 ≠ .error .Read := by
  refine ⟨by decide, by decide⟩

/-- C5 as amended: `read` fails with `Read` exactly on an unmatched close
paren (a close paren while the list stack is empty) and on a `#`-prefixed
symbol spelled other than `#`, `#t`, `#f`; an unclosed open paren is not
an error — at end of input the current pending items are returned as the
top-level values (and enclosing pending lists are discarded). The last
two conjuncts evaluate the spec's literal error scenarios. -/
theorem c5_read_error_spec :
    (∀ (toks : List Token) (ptrs : List Gc) (l : V0),
      parseLoop (Token.Rparen :: toks) ptrs [] l = (.error .Read, l)) ∧
    (∀ (toks : List Token) (ptrs : List Gc) (stack : List (List Gc)) (l : V0) (s : String),
      startsWithHash s = true → s ≠ "#" → s ≠ "#t" → s ≠ "#f" →
      parseLoop (Token.Symbol s :: toks) ptrs stack l = (.error .Read, l)) ∧
    (∀ (ptrs : List Gc) (stack : List (List Gc)) (l : V0),
      parseLoop [] ptrs stack l = (.ok ptrs, l)) ∧
    ((init 4).read ")").1 = .error .Read ∧
    ((init 4).read "#bad").1 = .error .Read := by
  refine ⟨fun toks ptrs l => rfl, ?_, fun ptrs stack l => rfl, by decide, by decide⟩
  intro toks ptrs stack l s hs h1 h2 h3
  simp [parseLoop, hs, h1, h2, h3]

/-- Witness for C5's amended theorem: the unknown spelling `#zig` is
rejected with a `Read` error. -/
theorem c5_read_error_spec_witness :
    (startsWithHash "#zig" = true ∧ "#zig" ≠ "#" ∧ "#zig" ≠ "#t" ∧ "#zig" ≠ "#f") ∧
    parseLoop [Token.Symbol "#zig"] [] [] (init 4) = (.error .Read, init 4) :=
  ⟨⟨by decide, by decide, by decide, by decide⟩,
    c5_read_error_spec.2.1 [] [] [] (init 4) "#zig" (by decide) (by decide) (by decide)
      (by decide)⟩

/-- Counterexample for C6: the claim says `show` renders the value read
from `"()"` as `"()"`. The code renders `Unit` as `"#"` everywhere, also
for this value, so the rendering is `"#"` and not `"()"`. -/
theorem c6_unit_not_shown_as_parens :
    showV ((init 4).read "()").2.heap 10 ⟨0, 0⟩ "" = some (.ok "#") ∧
    showV ((init 4).read "()").2.heap 10 ⟨0, 0⟩ "" ≠ some (.ok "()") := by
  refine ⟨by decide, by decide⟩

/-- C6 as amended: reading `"()"` produces exactly one top-level value,
the object `Unit`, and `show` renders that value as `"#"` (the nil
spelling of this implementation). -/
theorem c6_read_empty_list :
    ((init 4).read "()").1 = .ok [⟨0, 0⟩] ∧
    ((init 4).read "()").2.heap.get ⟨0, 0⟩ = .ok .Unit ∧
    showV ((init 4).read "()").2.heap 10 ⟨0, 0⟩ "" = some (.ok "#") := by
  refine ⟨by decide, by decide, by decide⟩

/-- C7: the reader/printer round trip on the spec's two scenarios.
`read "(a b c)"` produces exactly one value which `show` renders back as
`"(a b c)"`, and `read "(#t #f foo)"` produces exactly one value rendered
as `"(#t #f foo)"`. -/
theorem c7_reader_round_trip :
    ((init 16).read "(a b c)").1 = .ok [⟨6, 6⟩] ∧
    showV ((init 16).read "(a b c)").2.heap 10 ⟨6, 6⟩ "" = some (.ok "(a b c)") ∧
    ((init 16).read "(#t #f foo)").1 = .ok [⟨6, 6⟩] ∧
    showV ((init 16).read "(#t #f foo)").2.heap 10 ⟨6, 6⟩ "" = some (.ok "(#t #f foo)") := by
  refine ⟨by decide, by decide, by decide, by decide⟩

/-- C8: allocation is first-fit. When slot `i` is the lowest empty slot,
`put` installs the object there stamped with the current time, advances
the time by one, and returns the pointer `(i, old time)`; when no slot is
empty it fails with `Space`; and on a heap of capacity 1 the second of
two allocations without an intervening collection fails with `Space`
(last conjunct evaluates the spec's literal scenario). -/
theorem c8_put_first_fit :
    (∀ (h : Heap) (object : Object) (i : Nat),
      i < h.nodes.length → h.nodes.getD i Node.None = Node.None →
      (∀ j, j < i → (h.nodes.getD j Node.None).is_none = false) →
      h.put object = (.ok ⟨i, h.time⟩,
        { nodes := h.nodes.set i (Node.Some object h.time), time := h.time + 1 })) ∧
    (∀ (h : Heap) (object : Object),
      (∀ n ∈ h.nodes, n.is_none = false) →
      h.put object = (.error .Space, h)) ∧
    (((Heap.withCapacity 1).put Object.Unit).2.put (Object.Bool true)).1 = .error .Space := by
  refine ⟨?_, ?_, by decide⟩
  · intro h object i hi hn hb
    unfold Heap.put
    rw [putLoop_first_fit h.time object h.nodes i hi hn hb]
  · intro h object hall
    unfold Heap.put
    rw [(putLoop_none_iff h.time object h.nodes).mpr hall]

/-- Witness for C8: allocating into a fresh two-slot heap fills slot 0
with stamp 0 and moves time to 1. -/
theorem c8_put_first_fit_witness :
    (0 < (Heap.withCapacity 2).nodes.length ∧
      (Heap.withCapacity 2).nodes.getD 0 Node.None = Node.None) ∧
    (Heap.withCapacity 2).put Object.Unit =
      (.ok ⟨0, 0⟩,
        { nodes := (Heap.withCapacity 2).nodes.set 0 (Node.Some Object.Unit 0), time := 1 }) :=
  ⟨⟨by decide, by decide⟩,
    c8_put_first_fit.1 (Heap.withCapacity 2) Object.Unit 0 (by decide) (by decide)
      (fun j hj => absurd hj (Nat.not_lt_zero j))⟩

/-- C9: a failed allocation is atomic. When `put` reports `Space`, the
returned heap is the argument heap itself: no slot was written and the
time counter did not advance (the scan writes only upon finding an empty
slot, and it found none). -/
theorem c9_put_space_atomic (h : Heap) (object : Object) :
    (h.put object).1 = .error .Space → (h.put object).2 = h := by
  intro herr
  unfold Heap.put at herr ⊢
  cases hput : putLoop h.time object h.nodes with
  | none => simp [hput]
  | some pr =>
    obtain ⟨ns2, i⟩ := pr
    rw [hput] at herr
    cases herr

/-- Witness for C9: the second allocation into a full one-slot heap fails
and returns that heap unchanged. -/
theorem c9_put_space_atomic_witness :
    ((((Heap.withCapacity 1).put Object.Unit).2.put (Object.Bool true)).1 = .error .Space) ∧
    (((Heap.withCapacity 1).put Object.Unit).2.put (Object.Bool true)).2 =
      ((Heap.withCapacity 1).put Object.Unit).2 :=
  ⟨by decide, c9_put_space_atomic _ _ (by decide)⟩

/-- C3: dereference semantics and pointer staleness. First conjunct: for
an in-bounds pointer, `get` fails with `Pointer` exactly when the slot is
empty or the slot's stamp differs from the pointer's (and `get` is
read-only by its very embedding type, mirroring `&self`). Second
conjunct: a valid pointer to an occupied slot whose stamp respects the
time bound fails dereference after a sweep that reclaims the slot
followed by any successful reallocation — also when the reallocation
reuses the very same slot, because the fresh stamp is the advanced time
and so differs from the stale pointer's stamp. -/
theorem c3_get_stale_spec :
    (∀ (h : Heap) (p : Gc), p.index < h.nodes.length →
      (h.get p = .error .Pointer ↔
        h.nodeAt p = Node.None ∨
          ∃ object ts,
            (h.nodeAt p = Node.Some object ts ∨ h.nodeAt p = Node.Mark object ts) ∧
            p.timestamp ≠ ts)) ∧
    (∀ (h : Heap) (p : Gc) (object : Object) (ts : Nat) (object2 : Object) (p2 : Gc)
        (h2 : Heap),
      h.nodeAt p = Node.Some object ts → p.timestamp = ts → ts < h.time →
      h.sweep.put object2 = (.ok p2, h2) →
      h2.get p = .error .Pointer) := by
  constructor
  · intro h p _
    cases hn : h.nodeAt p with
    | None => simp [Heap.get, hn]
    | Some object ts =>
      by_cases hts : p.timestamp = ts
      · simp [Heap.get, hn, hts]
      · simp only [Heap.get, hn, if_pos hts, true_iff, hts]
        exact Or.inr ⟨object, ts, Or.inl rfl, hts⟩
    | Mark object ts =>
      by_cases hts : p.timestamp = ts
      · simp [Heap.get, hn, hts]
      · simp only [Heap.get, hn, if_pos hts, true_iff, hts]
        exact Or.inr ⟨object, ts, Or.inr rfl, hts⟩
  · intro h p object ts object2 p2 h2 hslot hstamp hlt hput
    obtain ⟨hp2ts, h2time, h2nodes, hp2lt, _⟩ := put_ok_spec h.sweep object2 p2 h2 hput
    have hplt : p.index < h.nodes.length :=
      nodeAt_lt_length h p (by rw [hslot]; intro hcontra; cases hcontra)
    have hgetp : h.nodes[p.index]? = some (Node.Some object ts) := by
      have := nodeAt_some h p (by rw [hslot]; intro hcontra; cases hcontra)
      rwa [hslot] at this
    have hswept : h.sweep.nodes[p.index]? = some Node.None := by
      show (h.nodes.map sweepNode)[p.index]? = some Node.None
      rw [List.getElem?_map, hgetp]
      rfl
    by_cases hip : p2.index = p.index
    · have hnew : h2.nodes[p.index]? = some (Node.Some object2 h.sweep.time) := by
        rw [h2nodes, hip]
        rw [List.getElem?_set_self (by simpa [Heap.sweep] using hplt)]
      have hnodeAt : h2.nodeAt p = Node.Some object2 h.sweep.time := by
        simp [Heap.nodeAt, hnew]
      have hne : p.timestamp ≠ h.sweep.time := by
        show p.timestamp ≠ h.time + 1
        omega
      simp [Heap.get, hnodeAt, hne]
    · have hold : h2.nodes[p.index]? = some Node.None := by
        rw [h2nodes, List.getElem?_set_ne hip]
        exact hswept
      have hnodeAt : h2.nodeAt p = Node.None := by
        simp [Heap.nodeAt, hold]
      simp [Heap.get, hnodeAt]

/-- Witness for C3: the heap of capacity 1 holding `Unit`; its pointer,
valid before the collection, fails dereference after sweep plus a
reallocation that reuses slot 0. -/
theorem c3_get_stale_spec_witness :
    (0 < (((Heap.withCapacity 1).put Object.Unit).2.nodes.length) ∧
      ((Heap.withCapacity 1).put Object.Unit).2.nodeAt ⟨0, 0⟩ = Node.Some Object.Unit 0 ∧
      (0 : Nat) < ((Heap.withCapacity 1).put Object.Unit).2.time) ∧
    ({ nodes := [Node.Some (Object.Bool true) 2], time := 3 } : Heap).get ⟨0, 0⟩ =
      .error .Pointer :=
  ⟨⟨by decide, by decide, by decide⟩,
    c3_get_stale_spec.2 ((Heap.withCapacity 1).put Object.Unit).2 ⟨0, 0⟩ Object.Unit 0
      (Object.Bool true) ⟨0, 2⟩ { nodes := [Node.Some (Object.Bool true) 2], time := 3 }
      (by decide) (by decide) (by decide) (by decide)⟩

/-- Allocation preserves the stamp invariant: existing stamps stay below
the advanced time and the fresh stamp is the old time. -/
lemma put_preserves_stampInv (h : Heap) (object : Object) (hinv : stampInvB h = true) :
    stampInvB (h.put object).2 = true := by
  cases hres : h.put object with
  | mk r h2 =>
    show stampInvB h2 = true
    cases r with
    | error e =>
      have hsame : h2 = h := by
        unfold Heap.put at hres
        cases hput : putLoop h.time object h.nodes with
        | none =>
          rw [hput] at hres
          injection hres with _ h2eq
          exact h2eq.symm
        | some pr =>
          obtain ⟨ns2, i⟩ := pr
          rw [hput] at hres
          simp at hres
      rw [hsame]
      exact hinv
    | ok p =>
      obtain ⟨_, h2time, h2nodes, hlt, _⟩ := put_ok_spec h object p h2 hres
      rw [stampInvB_iff] at hinv ⊢
      intro n hn obj ts hcase
      rw [h2nodes] at hn
      rcases List.mem_or_eq_of_mem_set hn with hmem | rfl
      · have := hinv n hmem obj ts hcase
        omega
      · rcases hcase with heq | heq
        · injection heq with _ hts
          omega
        · cases heq

/-- The sweep preserves the stamp invariant: surviving stamps are the old
ones and the time advances. -/
lemma sweep_preserves_stampInv (h : Heap) (hinv : stampInvB h = true) :
    stampInvB h.sweep = true := by
  rw [stampInvB_iff] at hinv ⊢
  intro n hn obj ts hcase
  obtain ⟨m, hm, hmn⟩ := List.mem_map.mp hn
  cases m with
  | None =>
    rw [← hmn] at hcase
    rcases hcase with heq | heq <;> cases heq
  | Some obj0 ts0 =>
    rw [← hmn] at hcase
    rcases hcase with heq | heq <;> cases heq
  | Mark obj0 ts0 =>
    have hts0 : ts0 < h.time := hinv _ hm obj0 ts0 (Or.inr rfl)
    rw [← hmn] at hcase
    rcases hcase with heq | heq
    · have htime : h.sweep.time = h.time + 1 := rfl
      injection heq with _ hts
      subst hts
      omega
    · cases heq

/-- The time counter never decreases across an allocation. -/
lemma put_time_mono (h : Heap) (o : Object) : h.time ≤ (h.put o).2.time := by
  unfold Heap.put
  cases hput : putLoop h.time o h.nodes with
  | none => exact Nat.le_refl _
  | some pr =>
    obtain ⟨ns2, i⟩ := pr
    exact Nat.le_succ _

/-- The time counter never decreases across any sequence of heap
mutations. -/
lemma runOps_time_mono (ops : List HeapOp) : ∀ h : Heap, h.time ≤ (runOps h ops).time := by
  induction ops with
  | nil => intro h; exact Nat.le_refl _
  | cons op rest ih =>
    intro h
    cases op with
    | put o => exact Nat.le_trans (put_time_mono h o) (ih _)
    | sweep =>
      show h.time ≤ (runOps h.sweep rest).time
      exact Nat.le_trans (Nat.le_succ h.time) (ih h.sweep)

/-- C10: the stamp discipline. `put` and `sweep` preserve the invariant
that every stored stamp is strictly below the time counter (`get` is
read-only and the body of `Heap::mark` contains no writes, so neither can
break it); a successful allocation hands out the current time as stamp
and then strictly advances time; and across any interleaving of further
allocations and sweeps, a later successful allocation hands out a
strictly larger stamp — so no stamp is ever reused for a different
object. -/
theorem c10_stamp_discipline :
    (∀ (h : Heap) (object : Object),
      stampInvB h = true → stampInvB (h.put object).2 = true) ∧
    (∀ h : Heap, stampInvB h = true → stampInvB h.sweep = true) ∧
    (∀ (h : Heap) (object : Object) (p : Gc) (h2 : Heap),
      h.put object = (.ok p, h2) → p.timestamp = h.time ∧ h.time < h2.time) ∧
    (∀ (h : Heap) (object : Object) (p : Gc) (h2 : Heap),
      h.put object = (.ok p, h2) →
      ∀ (ops : List HeapOp) (object2 : Object) (p2 : Gc) (h4 : Heap),
        (runOps h2 ops).put object2 = (.ok p2, h4) →
        p.timestamp < p2.timestamp) := by
  refine ⟨?_, ?_, ?_, ?_⟩
  · intro h object hinv
    exact put_preserves_stampInv h object hinv
  · intro h hinv
    exact sweep_preserves_stampInv h hinv
  · intro h object p h2 hput
    obtain ⟨hts, htime, _, _, _⟩ := put_ok_spec h object p h2 hput
    omega
  · intro h object p h2 hput ops object2 p2 h4 hput2
    obtain ⟨hts, htime, _, _, _⟩ := put_ok_spec h object p h2 hput
    obtain ⟨hts2, _, _, _, _⟩ := put_ok_spec _ object2 p2 h4 hput2
    have hmono := runOps_time_mono ops h2
    omega

/-- Witness for C10: the allocation in a fresh two-slot heap gets stamp
0; after a sweep, the next allocation — into the same slot — gets stamp
2. -/
theorem c10_stamp_discipline_witness :
    ((Heap.withCapacity 2).put Object.Unit =
        (.ok ⟨0, 0⟩, { nodes := [Node.Some Object.Unit 0, Node.None], time := 1 }) ∧
      (runOps { nodes := [Node.Some Object.Unit 0, Node.None], time := 1 }
          [HeapOp.sweep]).put (Object.Bool true) =
        (.ok ⟨0, 2⟩, { nodes := [Node.Some (Object.Bool true) 2, Node.None], time := 3 })) ∧
    (Gc.mk 0 0).timestamp < (Gc.mk 0 2).timestamp :=
  ⟨⟨by decide, by decide⟩,
    c10_stamp_discipline.2.2.2 (Heap.withCapacity 2) Object.Unit ⟨0, 0⟩
      { nodes := [Node.Some Object.Unit 0, Node.None], time := 1 } (by decide)
      [HeapOp.sweep] (Object.Bool true) ⟨0, 2⟩
      { nodes := [Node.Some (Object.Bool true) 2, Node.None], time := 3 } (by decide)⟩

/-- C4: the cached `is_proper_list` flag. On a heap satisfying the
constructor invariant, a successful `pair` constructor call (which reads
the tag of what `rest` points to and caches `true` for `Unit`, the
cached flag for a `Pair`, `false` otherwise) preserves the invariant, and
the flag stored in the new cell equals the result of a from-scratch
traversal of the `rest` chain — for dotted and proper chains of any
depth, since the invariant covers every stored pair. -/
theorem c4_pair_flag_cache :
    ∀ (l : V0) (a d p : Gc) (l2 : V0),
      heapInvB l.heap = true →
      l.pair a d = (.ok p, l2) →
      heapInvB l2.heap = true ∧
      ∃ b : Bool, l2.heap.get p = .ok (.Pair ⟨a, d, b⟩) ∧
        chaseList l2.heap (p.timestamp + 1) p = some b := by
  intro l a d p l2 hinv hpair
  have hstampInv : stampInvB l.heap = true := by
    unfold heapInvB at hinv
    exact (Bool.and_eq_true _ _).mp hinv |>.1
  have hpairInv : pairInvB l.heap = true := by
    unfold heapInvB at hinv
    exact (Bool.and_eq_true _ _).mp hinv |>.2
  unfold V0.pair at hpair
  cases hget : l.heap.get d with
  | error e =>
    rw [hget] at hpair
    simp at hpair
  | ok obj =>
    rw [hget] at hpair
    cases hput : l.heap.put (Object.Pair ⟨a, d, flagOfRest obj⟩) with
    | mk r h2 =>
      have hpair2 : ((l.heap.put (Object.Pair ⟨a, d, flagOfRest obj⟩)).1,
          (⟨(l.heap.put (Object.Pair ⟨a, d, flagOfRest obj⟩)).2⟩ : V0)) = (.ok p, l2) := hpair
      rw [hput] at hpair2
      injection hpair2 with h1 h2eq
      have h1' : r = Except.ok p := h1
      subst h1'
      subst h2eq
      obtain ⟨hpts, h2time, h2nodes, hplt, hpempty⟩ :=
        put_ok_spec l.heap (Object.Pair ⟨a, d, flagOfRest obj⟩) p h2 hput
      obtain ⟨ts2, hslot2, hts2⟩ := get_ok_spec l.heap d obj hget
      have hdnn : l.heap.nodeAt d ≠ Node.None := by
        rcases hslot2 with hs | hs <;> rw [hs] <;> intro hc <;> cases hc
      have hdmem : l.heap.nodeAt d ∈ l.heap.nodes := nodeAt_mem _ _ hdnn
      have hts2lt : ts2 < l.heap.time := by
        rcases hslot2 with hs | hs
        · exact (stampInvB_iff _).mp hstampInv _ (hs ▸ hdmem) obj ts2 (Or.inl rfl)
        · exact (stampInvB_iff _).mp hstampInv _ (hs ▸ hdmem) obj ts2 (Or.inr rfl)
      have hdne : d.index ≠ p.index := index_ne_of_nodeAt_ne_none l.heap d p.index hpempty hdnn
      have hnodep : h2.nodeAt p = Node.Some (Object.Pair ⟨a, d, flagOfRest obj⟩) l.heap.time := by
        unfold Heap.nodeAt
        rw [h2nodes, List.getD_eq_getElem?_getD, List.getElem?_set_self hplt]
        rfl
      have hunchanged : ∀ q : Gc, q.index ≠ p.index → h2.nodeAt q = l.heap.nodeAt q := by
        intro q hq
        unfold Heap.nodeAt
        rw [h2nodes, List.getD_eq_getElem?_getD, List.getD_eq_getElem?_getD,
          List.getElem?_set_ne fun hc => hq hc.symm]
      have hpairInv2 : pairInvB h2 = true := by
        rw [pairInvB_iff]
        intro n hn v ts hcase
        rw [h2nodes] at hn
        rcases List.mem_or_eq_of_mem_set hn with hmem | rfl
        · have hold : pairSndOk l.heap v ts = true :=
            (pairInvB_iff _).mp hpairInv n hmem v ts hcase
          rw [pairSndOk_iff] at hold ⊢
          obtain ⟨obj2, ts3, hslot3, ha, hb, hc⟩ := hold
          have hsnn : l.heap.nodeAt v.snd ≠ Node.None := by
            rcases hslot3 with hs | hs <;> rw [hs] <;> intro hcon <;> cases hcon
          have hsne : v.snd.index ≠ p.index :=
            index_ne_of_nodeAt_ne_none l.heap v.snd p.index hpempty hsnn
          refine ⟨obj2, ts3, ?_, ha, hb, hc⟩
          rw [hunchanged v.snd hsne]
          exact hslot3
        · rcases hcase with heq | heq
          · injection heq with ho hts3
            injection ho with hv
            subst hv
            subst hts3
            rw [pairSndOk_iff]
            refine ⟨obj, ts2, ?_, hts2, hts2lt, rfl⟩
            show h2.nodeAt d = Node.Some obj ts2 ∨ h2.nodeAt d = Node.Mark obj ts2
            rw [hunchanged d hdne]
            exact hslot2
          · cases heq
      have hstampInv2 : stampInvB h2 = true := by
        have hpres := put_preserves_stampInv l.heap (Object.Pair ⟨a, d, flagOfRest obj⟩) hstampInv
        rw [hput] at hpres
        exact hpres
      refine ⟨?_, flagOfRest obj, ?_, ?_⟩
      · unfold heapInvB
        rw [hstampInv2, hpairInv2]
        rfl
      · unfold Heap.get
        rw [hnodep]
        simp [hpts]
      · have hch := chase_agrees (p.timestamp + 1) h2 p
          (Object.Pair ⟨a, d, flagOfRest obj⟩) l.heap.time hpairInv2 (Or.inl hnodep) hpts
          (by omega)
        exact hch

/-- Witness for C4: in a two-slot heap holding `Unit`, constructing the
pair `(u . u)` succeeds; its cached flag agrees with the traversal. -/
theorem c4_pair_flag_cache_witness :
    heapInvB ((init 2).unit.2.heap) = true ∧
    ((init 2).unit.2.pair ⟨0, 0⟩ ⟨0, 0⟩ =
      (.ok ⟨1, 1⟩, ((init 2).unit.2.pair ⟨0, 0⟩ ⟨0, 0⟩).2)) ∧
    (heapInvB ((init 2).unit.2.pair ⟨0, 0⟩ ⟨0, 0⟩).2.heap = true ∧
      ∃ b : Bool,
        ((init 2).unit.2.pair ⟨0, 0⟩ ⟨0, 0⟩).2.heap.get ⟨1, 1⟩ =
          .ok (.Pair ⟨⟨0, 0⟩, ⟨0, 0⟩, b⟩) ∧
        chaseList ((init 2).unit.2.pair ⟨0, 0⟩ ⟨0, 0⟩).2.heap ((Gc.mk 1 1).timestamp + 1)
            ⟨1, 1⟩ = some b) :=
  ⟨by decide, by decide,
    c4_pair_flag_cache (init 2).unit.2 ⟨0, 0⟩ ⟨0, 0⟩ ⟨1, 1⟩
      ((init 2).unit.2.pair ⟨0, 0⟩ ⟨0, 0⟩).2 (by decide) (by decide)⟩

end Softmacs
